import Mathlib

/-!
Verification development for the `adr_scanner.py` markdown-index tool.

Strings are modelled as `List Char` (Python `str` is a sequence of code
points).  Whitespace classification and case mapping are modelled for the
ASCII range, which covers all content the tool's configuration and tests
exercise; Python's `str` methods extend these classes to further Unicode
code points not modelled here.
-/

namespace AdrScanner

/-- Space or tab, the character class `[ \t]` used by `H1_REGEX`. -/
def isSpaceTab (c : Char) : Bool := c = ' ' || c = '\t'

/-- ASCII whitespace as stripped by Python `str.strip()` / matched by `\s`. -/
def isPyWs (c : Char) : Bool :=
  c = ' ' || c = '\t' || c = '\n' || c = '\r' || c = '\x0b' || c = '\x0c'

/-- Python `s.lstrip()` (ASCII whitespace). -/
def pyLStrip (s : List Char) : List Char := s.dropWhile isPyWs

/-- Python `s.rstrip()` (ASCII whitespace). -/
def pyRStrip (s : List Char) : List Char := (s.reverse.dropWhile isPyWs).reverse

/-- Python `s.strip()` (ASCII whitespace). -/
def pyStrip (s : List Char) : List Char := pyRStrip (pyLStrip s)

/-- Split on `'\n'` exactly, keeping a trailing empty piece, i.e. Python
`s.split("\n")`.  This is also the line decomposition relevant to
`re.MULTILINE` anchors `^`/`$`, which recognise only `'\n'` as a line
boundary. -/
def splitNL : List Char → List (List Char)
  | [] => [[]]
  | c :: rest =>
    if c = '\n' then [] :: splitNL rest
    else
      match splitNL rest with
      | [] => [[c]]
      | l :: ls => (c :: l) :: ls

/-- Line-break characters recognised by Python `str.splitlines()`
(ASCII range; the further Unicode breaks are not modelled). -/
def isLineBreak (c : Char) : Bool :=
  c = '\n' || c = '\r' || c = '\x0b' || c = '\x0c' ||
  c = '\x1c' || c = '\x1d' || c = '\x1e' || c = '\x85'

/-- Worker for `splitlinesPy`: `cur` is the reversed current line. -/
def splitlinesGo : List Char → List Char → List (List Char)
  | cur, [] => if cur.isEmpty then [] else [cur.reverse]
  | cur, '\r' :: '\n' :: rest => cur.reverse :: splitlinesGo [] rest
  | cur, c :: rest =>
    if isLineBreak c then cur.reverse :: splitlinesGo [] rest
    else splitlinesGo (c :: cur) rest

/-- Python `s.splitlines()`: no trailing empty line, `\r\n` counts once. -/
def splitlinesPy (s : List Char) : List (List Char) := splitlinesGo [] s

/-- Join pieces with a separator character, Python `sep.join(parts)` for a
one-character separator. -/
def joinSep (sep : Char) : List (List Char) → List Char
  | [] => []
  | [l] => l
  | l :: ls => l ++ sep :: joinSep sep ls

/-- Index of the first occurrence of `pat` as a contiguous substring, the
semantics of Python `str.find` and of `re.search` for a literal pattern. -/
def findSub (pat : List Char) : List Char → Option Nat
  | [] => if pat.isEmpty then some 0 else none
  | c :: rest =>
    if pat.isPrefixOf (c :: rest) then some 0
    else (findSub pat rest).map (· + 1)

/-- Result of `H1_REGEX` on one `'\n'`-delimited line, already composed with
the `.strip()` that `first_h1` applies to the captured group.  The pattern
`^[ \t]*#[ \t]+(.+?)\s*$` (re.MULTILINE) matches a line exactly when, after
its maximal run of spaces/tabs, a `#` follows, the next character is again a
space or tab, and at least one further character remains on the line (the
non-empty `(.+?)` capture; `.` never matches `'\n'`).  By the non-greedy
capture followed by `\s*$`, the stripped capture equals the stripped
remainder of the line after the `#`. -/
def lineH1Group (line : List Char) : Option (List Char) :=
  match line.dropWhile isSpaceTab with
  | '#' :: r =>
    match r with
    | c :: _ :: _ => if isSpaceTab c then some (pyStrip r) else none
    | _ => none
  | _ => none

/-- `first_h1` (adr_scanner.py lines 58-60): the stripped capture of the
first line matched by `H1_REGEX`, scanning lines left to right (a match of
the anchored multiline pattern can only start at a line start, so the
leftmost regex match is on the first matching line). -/
def first_h1 (text : List Char) : Option (List Char) :=
  (splitNL text).findSome? lineH1Group

/-- The fallback loop of `title_for` (adr_scanner.py lines 70-74): the first
line of `text.splitlines()` whose strip is non-empty, stripped; else the
file's stem. -/
def fallbackTitle (text stemName : List Char) : List Char :=
  match (splitlinesPy text).find? (fun l => !(pyStrip l).isEmpty) with
  | some l => pyStrip l
  | none => stemName

/-- `title_for` (adr_scanner.py lines 62-74).  `readResult` is the outcome of
`path.read_text` (`none` models the `except` branch), `stemName` is
`path.stem`.  Python's `if h:` is false both for `None` and for the empty
string, so an empty stripped capture falls through to the line loop. -/
def title_for (readResult : Option (List Char)) (stemName : List Char) :
    List Char :=
  match readResult with
  | none => stemName
  | some text =>
    match first_h1 text with
    | some h => if h.isEmpty then fallbackTitle text stemName else h
    | none => fallbackTitle text stemName

/-- `normalize_glob` (adr_scanner.py lines 55-56):
`pat.replace("\\", "/").lstrip("./")`.  `str.lstrip` with an argument
removes every leading character drawn from the given SET of characters, so
`lstrip("./")` strips the maximal leading run of `'.'` and `'/'`
characters, not merely a `"./"` prefix. -/
def normalize_glob (pat : List Char) : List Char :=
  (pat.map (fun c => if c = '\\' then '/' else c)).dropWhile
    (fun c => c = '.' || c = '/')

/-- Glob pattern tokens, the alternatives produced by `fnmatch.translate`:
a literal character, `?` (`.` in the regex), `*` (`.*`), and a `[...]`
class with optional negation.  `star2` is used only by the spec-side
matcher (`globSpecMatch`) for `**`; `fnmatch` itself translates `**` as two
consecutive `*` tokens. -/
inductive GTok where
  | lit (c : Char)
  | any
  | star
  | star2
  | cls (neg : Bool) (set : List Char)
deriving DecidableEq, Repr

/-- Scan a bracket body up to the closing `]`, returning the set characters
and the rest of the pattern, or `none` when the bracket is unterminated. -/
def scanSet : List Char → Option (List Char × List Char)
  | [] => none
  | ']' :: rest => some ([], rest)
  | c :: rest => (scanSet rest).map (fun p => (c :: p.1, p.2))

/-- Decompose the pattern text after a `[` as `fnmatch.translate` does: an
optional leading `!` negates; a `]` directly after it is a literal member;
an unterminated bracket yields `none` (the `[` is then a literal). -/
def splitBracket (ps : List Char) : Option (Bool × List Char × List Char) :=
  match ps with
  | '!' :: ']' :: rest => (scanSet rest).map (fun p => (true, ']' :: p.1, p.2))
  | '!' :: rest => (scanSet rest).map (fun p => (true, p.1, p.2))
  | ']' :: rest => (scanSet rest).map (fun p => (false, ']' :: p.1, p.2))
  | rest => (scanSet rest).map (fun p => (false, p.1, p.2))

/-- Fuel-indexed pattern tokenizer; the fuel only needs to cover the pattern
length, as each step consumes at least one character. -/
def tokenizeFuel : Nat → List Char → List GTok
  | 0, _ => []
  | _ + 1, [] => []
  | fuel + 1, '*' :: ps => .star :: tokenizeFuel fuel ps
  | fuel + 1, '?' :: ps => .any :: tokenizeFuel fuel ps
  | fuel + 1, '[' :: ps =>
    match splitBracket ps with
    | none => .lit '[' :: tokenizeFuel fuel ps
    | some (neg, set, ps') => .cls neg set :: tokenizeFuel fuel ps'
  | fuel + 1, c :: ps => .lit c :: tokenizeFuel fuel ps

/-- Tokenization of a glob pattern per `fnmatch.translate`. -/
def tokenize (pat : List Char) : List GTok := tokenizeFuel pat.length pat

/-- Membership of a character in a bracket set: `a-b` denotes the inclusive
code-point range (empty when reversed, as in current CPython), any other
character is a literal member; a trailing `-` is literal. -/
def charInSet : List Char → Char → Bool
  | a :: '-' :: b :: rest, c => (a ≤ c && c ≤ b) || charInSet rest c
  | a :: rest, c => a = c || charInSet rest c
  | [], _ => false

/-- All suffixes of a string, longest first (including itself and `[]`). -/
def suffixes : List Char → List (List Char)
  | [] => [[]]
  | c :: r => (c :: r) :: suffixes r

/-- Matching of a token list against a whole string, the semantics of the
regex `fnmatch.translate` builds: `*` becomes `.*` under an `(?s:...)\Z`
wrapper, so it matches ANY characters, including `/` — `fnmatch` gives the
path separator no special treatment. `star2` never arises here and is kept
equivalent to `star` (in `fnmatch`, `**` is two stars, i.e. one). -/
def tmatch : List GTok → List Char → Bool
  | [], s => s.isEmpty
  | .star :: ts, s => (suffixes s).any (fun s' => tmatch ts s')
  | .star2 :: ts, s => (suffixes s).any (fun s' => tmatch ts s')
  | .any :: ts, s =>
    match s with
    | [] => false
    | _ :: s' => tmatch ts s'
  | .cls neg set :: ts, s =>
    match s with
    | [] => false
    | c :: s' => (charInSet set c != neg) && tmatch ts s'
  | .lit a :: ts, s =>
    match s with
    | [] => false
    | c :: s' => a = c && tmatch ts s'

/-- `fnmatch.fnmatch(name, pat)`: on POSIX `os.path.normcase` is the
identity, so this is a full match of the translated pattern. -/
def fnmatch (nameStr pat : List Char) : Bool := tmatch (tokenize pat) nameStr

/-- Suffixes reachable by consuming only non-`/` characters (used by the
spec-side matcher, where `*` must not cross a directory separator). -/
def nonSlashSuffixes : List Char → List (List Char)
  | [] => [[]]
  | c :: r => (c :: r) :: (if c = '/' then [] else nonSlashSuffixes r)

/-- Modelled from the spec: fuel-indexed tokenizer in which `**` is a
single recursive token, as in the spec's "`**` match directory segments
greedily" reading, and `[...]` classes are parsed exactly as `fnmatch`
parses them; the fuel only needs to cover the pattern length. -/
def tokenizeSpecFuel : Nat → List Char → List GTok
  | 0, _ => []
  | _ + 1, [] => []
  | fuel + 1, '*' :: '*' :: ps => .star2 :: tokenizeSpecFuel fuel ps
  | fuel + 1, '*' :: ps => .star :: tokenizeSpecFuel fuel ps
  | fuel + 1, '?' :: ps => .any :: tokenizeSpecFuel fuel ps
  | fuel + 1, '[' :: ps =>
    match splitBracket ps with
    | none => .lit '[' :: tokenizeSpecFuel fuel ps
    | some (neg, set, ps') => .cls neg set :: tokenizeSpecFuel fuel ps'
  | fuel + 1, c :: ps => .lit c :: tokenizeSpecFuel fuel ps

/-- Modelled from the spec: tokenization of a glob pattern under the spec's
§4.2 reading (`**` one crossing token, `*`/`?`/`[...]` segment-bounded). -/
def tokenizeSpec (pat : List Char) : List GTok :=
  tokenizeSpecFuel pat.length pat

/-- Modelled from the spec: matcher for the spec's stated glob semantics
(§4.2), in which `*` and `?` do not cross a `/` directory separator while
`**` matches across segments greedily. -/
def smatch : List GTok → List Char → Bool
  | [], s => s.isEmpty
  | .star2 :: ts, s => (suffixes s).any (fun s' => smatch ts s')
  | .star :: ts, s => (nonSlashSuffixes s).any (fun s' => smatch ts s')
  | .any :: ts, s =>
    match s with
    | [] => false
    | c :: s' => !(c = '/') && smatch ts s'
  | .cls neg set :: ts, s =>
    match s with
    | [] => false
    | c :: s' => !(c = '/') && (charInSet set c != neg) && smatch ts s'
  | .lit a :: ts, s =>
    match s with
    | [] => false
    | c :: s' => a = c && smatch ts s'

/-- Modelled from the spec: full-string glob match under the spec's §4.2
semantics (`*`, `?`, `[...]` do not cross `/`; `**` crosses segments). -/
def globSpecMatch (nameStr pat : List Char) : Bool :=
  smatch (tokenizeSpec pat) nameStr

/-- `replace_between_markers` (adr_scanner.py lines 136-146).  The regex
`(re.escape(start))(.*?)re.escape(end)` with `re.DOTALL` matches, at the
first occurrence of `start` that is followed anywhere later by `end`, the
shortest span up to the next `end`; since an occurrence of `end` after a
later `start` also lies after the first `start`, the match position is
simply the first occurrence of `start`, provided `end` occurs at or after
its end.  `m.start(1)` is that position and `m.end()` is the end of the
`end` marker.  A failed search raises `RuntimeError`, modelled as `none`. -/
def replace_between_markers (content s e replacement : List Char) :
    Option (List Char × Bool) :=
  match findSub s content with
  | none => none
  | some i =>
    match findSub e (content.drop (i + s.length)) with
    | none => none
    | some k =>
      let before := content.take i
      let after := content.drop (i + s.length + k + e.length)
      let continued := before ++ s ++ '\n' :: (replacement ++ e ++ after)
      some (continued, continued != content)

/-- A regular file found below the source directory: its absolute path as a
list of segments (the resolved `Path`), and the outcome of reading it
(`none` models a read failure, the `except` branch of `title_for`). -/
structure MdFile where
  parts : List (List Char)
  content : Option (List Char)
deriving DecidableEq, Repr

/-- `Path.name`: the final path segment. -/
def pathName (f : MdFile) : List Char := f.parts.getLastD []

/-- `PurePath.suffix` of a file name: with `i` the position of the LAST dot
(`name.rfind('.')`), the suffix is `name[i:]` when `0 < i < len(name) - 1`
and the empty string otherwise (also when the last dot is leading or
trailing - there is no fallback to an earlier dot). -/
def pySuffix (name : List Char) : List Char :=
  match ((List.range name.length).filter
      (fun i => name.getD i ' ' = '.')).getLast? with
  | some i => if 0 < i && i < name.length - 1 then name.drop i else []
  | none => []

/-- `PurePath.stem`: the final segment without its `pySuffix`. -/
def pyStem (name : List Char) : List Char :=
  name.take (name.length - (pySuffix name).length)

/-- `p.relative_to(src_dir).as_posix()` for a file below `src_dir`:
the remaining segments joined with `/`. -/
def relPosix (f : MdFile) (src_dir : List (List Char)) : List Char :=
  joinSep '/' (f.parts.drop src_dir.length)

/-- `iter_markdown_files` (adr_scanner.py lines 43-53).  `files` models the
regular files produced by `src_dir.rglob("*")` (each with `src_dir` as a
prefix of its `parts`); directories are already excluded by the
`p.is_file()` test.  A file is kept when its extension — `p.suffix`
stripped of leading dots, `str.lstrip(".")` again being set-based — is
exactly in `exts`, and its forward-slash relative path matches none of the
normalized exclusion patterns. -/
def iter_markdown_files (src_dir : List (List Char)) (files : List MdFile)
    (ex_patterns : List (List Char)) (exts : List (List Char)) :
    List MdFile :=
  let rel_ex := ex_patterns.map normalize_glob
  files.filter (fun p =>
    ((pySuffix (pathName p)).dropWhile (fun c => c = '.')) ∈ exts &&
    !(rel_ex.any (fun pat => fnmatch (relPosix p src_dir) pat)))

/-- One step of Python `str.title()` (ASCII model): an alphabetic character
is uppercased after a non-cased character and lowercased after a cased one;
`prevCased` tracks whether the previous character was alphabetic. -/
def pyTitleGo (prevCased : Bool) : List Char → List Char
  | [] => []
  | c :: rest =>
    (if c.isAlpha then (if prevCased then c.toLower else c.toUpper) else c)
      :: pyTitleGo c.isAlpha rest

/-- Python `str.title()` (ASCII model). -/
def pyTitle (s : List Char) : List Char := pyTitleGo false s

/-- `apply_case` (adr_scanner.py lines 86-91).  The `"title"` arm first
replaces `-` and `_` by spaces (single-character `str.replace`). -/
def apply_case (s : List Char) (mode : String) : List Char :=
  if mode = "title" then
    pyTitle (s.map (fun c => if c = '-' || c = '_' then ' ' else c))
  else if mode = "upper" then s.map Char.toUpper
  else if mode = "lower" then s.map Char.toLower
  else s

/-- `group_key_for` (adr_scanner.py lines 93-100): the first `depth`
directory segments of the path below `src_dir`, joined with `/`; empty for
a file directly under `src_dir`. -/
def group_key_for (f : MdFile) (src_dir : List (List Char)) (depth : Nat) :
    List Char :=
  let rel_parts := f.parts.drop src_dir.length
  let dirs := rel_parts.dropLast
  if dirs.isEmpty then [] else joinSep '/' (dirs.take depth)

/-- Length of the longest common prefix of two segment lists. -/
def commonPrefixLen : List (List Char) → List (List Char) → Nat
  | a :: as_, b :: bs => if a = b then commonPrefixLen as_ bs + 1 else 0
  | _, _ => 0

/-- `os.path.relpath(path, start)` on POSIX for normalized absolute
segment paths: `..` for each remaining `start` segment after the common
prefix, then the remaining `path` segments; `.` when nothing remains. -/
def relpathSegs (path start : List (List Char)) : List Char :=
  let c := commonPrefixLen path start
  let segs := List.replicate (start.length - c) ('.' :: ['.']) ++ path.drop c
  if segs.isEmpty then ['.'] else joinSep '/' segs

/-- Escaping of `[` and `]` in a link title
(`title.replace("[", "\\[").replace("]", "\\]")`; the two single-character
replacements are independent, so one pass suffices). -/
def escBrackets (s : List Char) : List Char :=
  s.flatMap (fun c =>
    if c = '[' then ['\\', '[']
    else if c = ']' then ['\\', ']']
    else [c])

/-- `list_item` (adr_scanner.py lines 110-114): `- [escaped title](rel link)`
with the title from `title_for` and the link relative to the target file's
directory. -/
def list_item (target_dir : List (List Char)) (f : MdFile) : List Char :=
  let link_title := title_for f.content (pyStem (pathName f))
  let rel_link := relpathSegs f.parts target_dir
  let safe_title := escBrackets link_title
  ('-' :: ' ' :: '[' :: safe_title) ++ (']' :: '(' :: rel_link) ++ [')']

/-- Append `x` to the value of the first pair whose key is `k`, or add a new
pair at the end: one `groups.setdefault(key, []).append(f)` step. -/
def groupInsert {α : Type} (k : List Char) (x : α) :
    List (List Char × List α) → List (List Char × List α)
  | [] => [(k, [x])]
  | (k', xs) :: rest =>
    if k' = k then (k', xs ++ [x]) :: rest
    else (k', xs) :: groupInsert k x rest

/-- The insertion-ordered groups dictionary built by the loop of
`build_list_markdown` (adr_scanner.py lines 120-123). -/
def groupPairs {α : Type} (keyOf : α → List Char) (l : List α) :
    List (List Char × List α) :=
  l.foldl (fun g x => groupInsert (keyOf x) x g) []

/-- Lexicographic `≤` on code points, Python string comparison. -/
def lexLe : List Char → List Char → Bool
  | [], _ => true
  | _ :: _, [] => false
  | a :: as_, b :: bs => if a = b then lexLe as_ bs else decide (a < b)

/-- The comparison induced by `key=lambda k: k.lower()` (ASCII lowercase). -/
def lowerLe (a b : List Char) : Bool :=
  lexLe (a.map Char.toLower) (b.map Char.toLower)

/-- Insert into a sorted list, before the first element not below `x`. -/
def insertLe {α : Type} (le : α → α → Bool) (x : α) : List α → List α
  | [] => [x]
  | y :: ys => if le x y then x :: y :: ys else y :: insertLe le x ys

/-- Stable insertion sort.  Python's `sorted` is a stable sort, and any two
stable sorts for the same total preorder agree, so this models
`sorted(groups.keys(), key=lambda k: k.lower())` exactly. -/
def sortLe {α : Type} (le : α → α → Bool) (l : List α) : List α :=
  l.foldr (insertLe le) []

/-- The groups of `build_list_markdown`, as key/entries pairs in rendering
order.  The source sorts the (distinct) dict keys and looks each one up;
sorting the pairs by the same key comparison is the same thing. -/
def sortedGroups (files : List MdFile) (src_dir : List (List Char))
    (depth : Nat) : List (List Char × List MdFile) :=
  sortLe (fun p q => lowerLe p.1 q.1)
    (groupPairs (fun f => group_key_for f src_dir depth) files)

/-- The lines one group contributes to `out` (adr_scanner.py lines
127-133): the heading — `#` repeated `max 1 level` times, a space, and the
group title (`"Misc"` for the empty key) passed through `apply_case` — then
one list item per file, then an empty line. -/
def groupBlock (target_dir : List (List Char)) (level : Nat) (mode : String)
    (p : List Char × List MdFile) : List (List Char) :=
  let title := if p.1.isEmpty then 'M' :: ['i', 's', 'c'] else p.1
  let title2 := apply_case title mode
  (List.replicate (max 1 level) '#' ++ ' ' :: title2)
    :: (p.2.map (list_item target_dir) ++ [[]])

/-- `build_list_markdown` (adr_scanner.py lines 102-134). -/
def build_list_markdown (files : List MdFile) (target_file : List (List Char))
    (src_dir : List (List Char)) (group_by : String) (group_depth : Nat)
    (group_heading_level : Nat) (group_title_case : String) : List Char :=
  let target_dir := target_file.dropLast
  if group_by = "none" then
    let lines := files.map (list_item target_dir)
    joinSep '\n' lines ++ (if lines.isEmpty then [] else ['\n'])
  else
    let out := (sortedGroups files src_dir group_depth).flatMap
      (groupBlock target_dir group_heading_level group_title_case)
    pyRStrip (joinSep '\n' out) ++ (if out.isEmpty then [] else ['\n'])

/-- Result of one run of `main` (adr_scanner.py lines 148-187): the process
exit status and the content of the target file after the run. -/
structure RunResult where
  exit : Nat
  target : List Char
deriving DecidableEq, Repr

/-- One run of `main` (adr_scanner.py lines 148-187).  `srcExists` and
`targetExists` model the two `Path.exists` checks; `content` is the text
read from the target file; `listMd` is the markdown fragment produced by
stages 2-3 (`iter_markdown_files` + `build_list_markdown`), which depend
only on the scanned source files, and so are unchanged between two runs
whenever the first run's write to the target does not alter a scanned file
(the target file is not itself a discovered document under the source
directory); `noFail` is `--no-fail-on-change`.  The target file is written
only when the content changed. -/
def runOnce (srcExists targetExists : Bool) (content listMd s e : List Char)
    (noFail : Bool) : RunResult :=
  if srcExists = false then ⟨2, content⟩
  else if targetExists = false then ⟨2, content⟩
  else
    match replace_between_markers content s e listMd with
    | none => ⟨3, content⟩
    | some (updated, changed) =>
      if changed then ⟨if noFail then 0 else 1, updated⟩
      else ⟨0, content⟩

/-! ### Substring search: specification of `findSub` -/

theorem isPrefixOf_length_le :
    ∀ p x : List Char, p.isPrefixOf x = true → p.length ≤ x.length
  | [], _, _ => Nat.zero_le _
  | _ :: _, [], h => by simp [List.isPrefixOf] at h
  | a :: p, b :: x, h => by
    simp only [List.isPrefixOf, Bool.and_eq_true, beq_iff_eq] at h
    simpa using Nat.succ_le_succ (isPrefixOf_length_le p x h.2)

theorem isPrefixOf_iff_exists_append (p x : List Char) :
    p.isPrefixOf x = true ↔ ∃ t, x = p ++ t := by
  induction p generalizing x with
  | nil => simp [List.isPrefixOf]
  | cons a p ih =>
    cases x with
    | nil =>
      simp only [List.isPrefixOf]
      constructor
      · intro h; exact absurd h (by simp)
      · rintro ⟨t, ht⟩; exact absurd ht (by simp)
    | cons b x =>
      simp only [List.isPrefixOf, Bool.and_eq_true, beq_iff_eq, ih,
        List.cons_append, List.cons.injEq]
      constructor
      · rintro ⟨rfl, t, rfl⟩; exact ⟨t, rfl, rfl⟩
      · rintro ⟨t, rfl, rfl⟩; exact ⟨rfl, t, rfl⟩

theorem isPrefixOf_append_left (p u v : List Char)
    (h : p.length ≤ u.length) :
    p.isPrefixOf (u ++ v) = p.isPrefixOf u := by
  induction p generalizing u with
  | nil => simp [List.isPrefixOf]
  | cons a p ih =>
    cases u with
    | nil => simp at h
    | cons b u =>
      simp only [List.cons_append, List.isPrefixOf, List.append_eq]
      rw [ih u (by simpa using Nat.le_of_succ_le_succ h)]

theorem findSub_eq_some_iff (pat : List Char) :
    ∀ (l : List Char) (i : Nat),
      findSub pat l = some i ↔
        (pat.isPrefixOf (l.drop i) = true ∧
          ∀ j, j < i → pat.isPrefixOf (l.drop j) = false) := by
  intro l
  induction l with
  | nil =>
    intro i
    cases pat with
    | nil =>
      simp only [findSub, List.isEmpty_nil, if_true]
      constructor
      · rintro h
        cases h
        simp [List.isPrefixOf]
      · rintro ⟨-, hmin⟩
        rcases Nat.eq_zero_or_pos i with rfl | hpos
        · rfl
        · exact absurd (hmin 0 hpos) (by simp [List.isPrefixOf])
    | cons a p => simp [findSub, List.isPrefixOf]
  | cons c rest ih =>
    intro i
    by_cases h : pat.isPrefixOf (c :: rest) = true
    · simp only [findSub, h, if_true]
      constructor
      · rintro heq
        cases heq
        exact ⟨by simpa using h, by intro j hj; omega⟩
      · rintro ⟨-, hmin⟩
        rcases Nat.eq_zero_or_pos i with rfl | hpos
        · rfl
        · have := hmin 0 hpos
          simp only [List.drop_zero] at this
          rw [h] at this
          cases this
    · have h' : pat.isPrefixOf (c :: rest) = false := by
        cases hb : pat.isPrefixOf (c :: rest) with
        | true => exact absurd hb h
        | false => rfl
      simp only [findSub, h', Bool.false_eq_true, if_false,
        Option.map_eq_some']
      constructor
      · rintro ⟨i', hi', rfl⟩
        obtain ⟨h1, h2⟩ := (ih i').mp hi'
        refine ⟨by simpa using h1, ?_⟩
        intro j hj
        cases j with
        | zero => simpa using h'
        | succ j => simpa using h2 j (by omega)
      · rintro ⟨h1, h2⟩
        cases i with
        | zero =>
          simp only [List.drop_zero] at h1
          rw [h'] at h1
          cases h1
        | succ i =>
          refine ⟨i, (ih i).mpr ⟨by simpa using h1, ?_⟩, rfl⟩
          intro j hj
          simpa using h2 (j + 1) (by omega)

theorem findSub_some_add_le (pat l : List Char) (i : Nat)
    (h : findSub pat l = some i) : i + pat.length ≤ l.length := by
  obtain ⟨h1, h2⟩ := (findSub_eq_some_iff pat l i).mp h
  have hlen := isPrefixOf_length_le _ _ h1
  simp only [List.length_drop] at hlen
  cases pat with
  | nil =>
    rcases Nat.eq_zero_or_pos i with rfl | hpos
    · simp
    · exact absurd (h2 0 hpos) (by simp [List.isPrefixOf])
  | cons a p =>
    simp only [List.length_cons] at hlen ⊢
    omega

theorem findSub_append_congr (pat A X Y : List Char) (i : Nat)
    (h : findSub pat (A ++ X) = some i) (hle : i + pat.length ≤ A.length) :
    findSub pat (A ++ Y) = some i := by
  have key : ∀ (Z : List Char) (j : Nat), j + pat.length ≤ A.length →
      pat.isPrefixOf ((A ++ Z).drop j) = pat.isPrefixOf (A.drop j) := by
    intro Z j hj
    rw [List.drop_append_eq_append_drop, Nat.sub_eq_zero_of_le (by omega),
      List.drop_zero, isPrefixOf_append_left]
    simp only [List.length_drop]
    omega
  obtain ⟨h1, h2⟩ := (findSub_eq_some_iff pat (A ++ X) i).mp h
  refine (findSub_eq_some_iff pat (A ++ Y) i).mpr ⟨?_, ?_⟩
  · rw [key Y i hle]
    rw [key X i hle] at h1
    exact h1
  · intro j hj
    have h2j := h2 j hj
    rw [key X j (by omega)] at h2j
    rw [key Y j (by omega)]
    exact h2j

/-! ### Marker substitution -/

theorem drop_append_add (u v : List Char) (n : Nat) :
    (u ++ v).drop (u.length + n) = v.drop n := by
  rw [List.drop_append_eq_append_drop, List.drop_eq_nil_of_le (by omega),
    Nat.add_sub_cancel_left, List.nil_append]

theorem take_append_len (u v : List Char) (n : Nat) (h : u.length = n) :
    (u ++ v).take n = u := by
  subst h
  simp

theorem drop_append_len (u v : List Char) (n : Nat) (h : u.length = n) :
    (u ++ v).drop n = v := by
  subst h
  simp

theorem content_decomp (s content : List Char) (i : Nat)
    (h : findSub s content = some i) :
    content = content.take i ++ s ++ content.drop (i + s.length) := by
  obtain ⟨h1, -⟩ := (findSub_eq_some_iff s content i).mp h
  obtain ⟨t, ht⟩ := (isPrefixOf_iff_exists_append s _).mp h1
  have htt : t = content.drop (i + s.length) := by
    have h2 : t = (content.drop i).drop s.length := by
      rw [ht, drop_append_len s t s.length rfl]
    rw [h2, List.drop_drop, Nat.add_comm]
  conv_lhs => rw [← List.take_append_drop i content, ht, htt]
  simp

theorem take_findSub_length (s content : List Char) (i : Nat)
    (h : findSub s content = some i) : (content.take i).length = i := by
  have := findSub_some_add_le s content i h
  simp only [List.length_take]
  omega

theorem replace_eq (content s e md : List Char) (i k : Nat)
    (hs : findSub s content = some i)
    (he : findSub e (content.drop (i + s.length)) = some k) :
    replace_between_markers content s e md =
      some (content.take i ++ s ++
              '\n' :: (md ++ e ++ content.drop (i + s.length + k + e.length)),
            (content.take i ++ s ++
              '\n' :: (md ++ e ++ content.drop (i + s.length + k + e.length)))
              != content) := by
  simp [replace_between_markers, hs, he]

theorem replace_idem (content s e md new : List Char) (ch : Bool)
    (h : replace_between_markers content s e md = some (new, ch))
    (hend : findSub e ('\n' :: (md ++ e)) = some (md.length + 1)) :
    replace_between_markers new s e md = some (new, false) := by
  rcases hs : findSub s content with _ | i
  · simp [replace_between_markers, hs] at h
  rcases he : findSub e (content.drop (i + s.length)) with _ | k
  · simp [replace_between_markers, hs, he] at h
  rw [replace_eq content s e md i k hs he] at h
  set after := content.drop (i + s.length + k + e.length) with hafter
  set A := content.take i ++ s with hA
  have hnew : new = A ++ '\n' :: (md ++ e ++ after) :=
    (congrArg Prod.fst (Option.some.inj h)).symm
  have hlenA : A.length = i + s.length := by
    rw [hA, List.length_append, take_findSub_length s content i hs]
  have hAc : content = A ++ content.drop (i + s.length) := by
    rw [hA]
    exact content_decomp s content i hs
  have step1 : findSub s new = some i := by
    rw [hnew]
    refine findSub_append_congr s A (content.drop (i + s.length)) _ i ?_
      (by omega)
    rw [← hAc]
    exact hs
  have step2 : new.drop (i + s.length) = '\n' :: (md ++ e ++ after) := by
    rw [hnew]
    exact drop_append_len A _ _ hlenA
  have step3 : findSub e (new.drop (i + s.length)) = some (md.length + 1) := by
    rw [step2]
    have hsplit : '\n' :: (md ++ e ++ after) =
        ('\n' :: (md ++ e)) ++ after := by
      simp
    rw [hsplit]
    refine findSub_append_congr e ('\n' :: (md ++ e)) [] after _ ?_ ?_
    · simpa using hend
    · simp only [List.length_cons, List.length_append]
      omega
  rw [replace_eq new s e md i (md.length + 1) step1 step3]
  have hdrop : new.drop (i + s.length + (md.length + 1) + e.length)
      = after := by
    have harith : i + s.length + (md.length + 1) + e.length =
        A.length + (md.length + 1 + e.length) := by
      rw [hlenA]; omega
    rw [hnew, harith, drop_append_add]
    have harith2 : md.length + 1 + e.length = (md.length + e.length) + 1 := by
      omega
    rw [harith2, List.drop_succ_cons]
    exact drop_append_len (md ++ e) after _ (by simp)
  have htake : new.take i = content.take i := by
    have hform : new = content.take i ++ (s ++ '\n' :: (md ++ e ++ after)) := by
      rw [hnew, hA, List.append_assoc]
    rw [hform]
    exact take_append_len _ _ _ (take_findSub_length s content i hs)
  rw [hdrop, htake, ← hA, ← hnew]
  simp

theorem replace_some_snd_false (content s e md new : List Char)
    (h : replace_between_markers content s e md = some (new, false)) :
    new = content := by
  rcases hs : findSub s content with _ | i
  · simp [replace_between_markers, hs] at h
  rcases he : findSub e (content.drop (i + s.length)) with _ | k
  · simp [replace_between_markers, hs, he] at h
  rw [replace_eq content s e md i k hs he] at h
  have h1 := (congrArg Prod.fst (Option.some.inj h)).symm
  have h2 := (congrArg Prod.snd (Option.some.inj h)).symm
  simp only at h1 h2
  rw [h1]
  exact bne_eq_false_iff_eq.mp h2.symm

/-! ### Claims C1-C3 -/

/-- C1: when the content contains an occurrence of the start marker followed
(anywhere later, non-greedily) by an occurrence of the end marker - i.e.
the searches for the two markers succeed at the first start position `i`
and at the first end position `k` after it - marker substitution returns
exactly: everything before the start marker, the start marker, one newline,
the replacement fragment, the end marker, and everything after the matched
span; content outside the span (`content.take i` and the tail drop) is
passed through verbatim, and the changed flag is true iff the
reconstruction differs from the original content. -/
theorem c1_replace_reconstruction (content s e repl : List Char) (i k : Nat)
    (hs : findSub s content = some i)
    (he : findSub e (content.drop (i + s.length)) = some k) :
    s.isPrefixOf (content.drop i) = true ∧
    (∀ j, j < i → s.isPrefixOf (content.drop j) = false) ∧
    e.isPrefixOf (content.drop (i + s.length + k)) = true ∧
    (∀ j, j < k →
      e.isPrefixOf ((content.drop (i + s.length)).drop j) = false) ∧
    replace_between_markers content s e repl =
      some (content.take i ++ s ++ '\n' ::
              (repl ++ e ++ content.drop (i + s.length + k + e.length)),
            (content.take i ++ s ++ '\n' ::
              (repl ++ e ++ content.drop (i + s.length + k + e.length)))
              != content) ∧
    (((content.take i ++ s ++ '\n' ::
        (repl ++ e ++ content.drop (i + s.length + k + e.length)))
        != content) = true ↔
      (content.take i ++ s ++ '\n' ::
        (repl ++ e ++ content.drop (i + s.length + k + e.length)))
        ≠ content) := by
  obtain ⟨hs1, hs2⟩ := (findSub_eq_some_iff s content i).mp hs
  obtain ⟨he1, he2⟩ := (findSub_eq_some_iff e _ k).mp he
  refine ⟨hs1, hs2, ?_, he2, replace_eq content s e repl i k hs he,
    bne_iff_ne⟩
  rw [List.drop_drop] at he1
  exact he1

/-- Witness for C1 on `content = "aSmEz"` with markers `S`, `E` and
replacement `R`. -/
theorem c1_witness :
    replace_between_markers ("aSmEz".toList) ("S".toList) ("E".toList)
        ("R".toList) = some ("aS\nREz".toList, true) := by
  have h := (c1_replace_reconstruction ("aSmEz".toList) ("S".toList)
    ("E".toList) ("R".toList) 1 1 (by decide) (by decide)).2.2.2.2.1
  rw [h]
  decide

/-- C2: exit codes of the orchestration - 2 when the source directory or
the target file is missing, 3 when the marker span is not found, 1 when the
content changed and the no-fail toggle is unset, 0 when nothing changed or
when it changed with the toggle set. -/
theorem c2_exit_codes (srcExists targetExists : Bool)
    (content listMd s e : List Char) (noFail : Bool) :
    (srcExists = false →
      (runOnce srcExists targetExists content listMd s e noFail).exit = 2) ∧
    (targetExists = false →
      (runOnce srcExists targetExists content listMd s e noFail).exit = 2) ∧
    (srcExists = true → targetExists = true →
      replace_between_markers content s e listMd = none →
      (runOnce srcExists targetExists content listMd s e noFail).exit = 3) ∧
    (∀ u, srcExists = true → targetExists = true →
      replace_between_markers content s e listMd = some (u, true) →
      noFail = false →
      (runOnce srcExists targetExists content listMd s e noFail).exit = 1) ∧
    (∀ u, srcExists = true → targetExists = true →
      replace_between_markers content s e listMd = some (u, true) →
      noFail = true →
      (runOnce srcExists targetExists content listMd s e noFail).exit = 0) ∧
    (∀ u, srcExists = true → targetExists = true →
      replace_between_markers content s e listMd = some (u, false) →
      (runOnce srcExists targetExists content listMd s e noFail).exit = 0) := by
  refine ⟨?_, ?_, ?_, ?_, ?_, ?_⟩
  · rintro rfl
    simp [runOnce]
  · rintro rfl
    cases srcExists <;> simp [runOnce]
  · rintro rfl rfl hnone
    simp [runOnce, hnone]
  · rintro u rfl rfl hsome rfl
    simp [runOnce, hsome]
  · rintro u rfl rfl hsome rfl
    simp [runOnce, hsome]
  · rintro u rfl rfl hsome
    simp [runOnce, hsome]

/-- Witness for C2: one concrete run per exit code. -/
theorem c2_witness :
    (runOnce false true [] [] [] [] false).exit = 2 ∧
    (runOnce true false [] [] [] [] false).exit = 2 ∧
    (runOnce true true ("x".toList) ("n".toList) ("<".toList) (">".toList)
      false).exit = 3 ∧
    (runOnce true true ("a<o>b".toList) ("n".toList) ("<".toList)
      (">".toList) false).exit = 1 ∧
    (runOnce true true ("a<o>b".toList) ("n".toList) ("<".toList)
      (">".toList) true).exit = 0 ∧
    (runOnce true true ("a<\nn>b".toList) ("n".toList) ("<".toList)
      (">".toList) false).exit = 0 :=
  ⟨(c2_exit_codes false true [] [] [] [] false).1 rfl,
   (c2_exit_codes true false [] [] [] [] false).2.1 rfl,
   (c2_exit_codes true true ("x".toList) ("n".toList) ("<".toList)
      (">".toList) false).2.2.1 rfl rfl (by decide),
   (c2_exit_codes true true ("a<o>b".toList) ("n".toList) ("<".toList)
      (">".toList) false).2.2.2.1 ("a<\nn>b".toList) rfl rfl (by decide) rfl,
   (c2_exit_codes true true ("a<o>b".toList) ("n".toList) ("<".toList)
      (">".toList) true).2.2.2.2.1 ("a<\nn>b".toList) rfl rfl (by decide) rfl,
   (c2_exit_codes true true ("a<\nn>b".toList) ("n".toList) ("<".toList)
      (">".toList) false).2.2.2.2.2 ("a<\nn>b".toList) rfl rfl (by decide)⟩

/-- C3 is false as stated: a valid configuration and filesystem state on
which the first run succeeds, but whose generated fragment contains the end
marker (a document titled `x </A> y` under custom markers `<A>`/`</A>`),
makes the second run change the target again and exit 1 instead of
reporting "no changes needed".  The first conjunct shows the fragment is
exactly what the rendering stage produces for that document. -/
theorem c3_counterexample :
    build_list_markdown
        [⟨["r".toList, "docs".toList, "a.md".toList],
          some ("# x </A> y".toList)⟩]
        ["r".toList, "docs".toList, "README.md".toList]
        ["r".toList, "docs".toList] "none" 1 2 "title"
      = "- [x </A> y](a.md)\n".toList ∧
    (runOnce true true ("T\n<A>\nOLD\n</A>\nF\n".toList)
        ("- [x </A> y](a.md)\n".toList) ("<A>".toList) ("</A>".toList)
        false).exit = 1 ∧
    (runOnce true true
        (runOnce true true ("T\n<A>\nOLD\n</A>\nF\n".toList)
          ("- [x </A> y](a.md)\n".toList) ("<A>".toList) ("</A>".toList)
          false).target
        ("- [x </A> y](a.md)\n".toList) ("<A>".toList) ("</A>".toList)
        false).exit = 1 := by
  refine ⟨by decide, by decide, by decide⟩

/-- C3 (amended): if the first run's marker substitution succeeds and the
FIRST occurrence of the end marker in newline + fragment + end-marker is
at its final position - no occurrence starts inside the newline + fragment
prefix, which excludes both fragments containing the end marker and
fragments whose tail forms an occurrence together with the marker's own
leading characters (fragment `xa` against end marker `aa`) - then a second
run over the first run's output, with the same fragment, reports
changed = false and exits with the neutral status 0. -/
theorem c3_idempotent_marker_free (content listMd s e : List Char)
    (noFail : Bool) (new : List Char) (ch : Bool)
    (hrep : replace_between_markers content s e listMd = some (new, ch))
    (hend : findSub e ('\n' :: (listMd ++ e)) = some (listMd.length + 1)) :
    replace_between_markers
        (runOnce true true content listMd s e noFail).target s e listMd =
      some ((runOnce true true content listMd s e noFail).target, false) ∧
    (runOnce true true
        (runOnce true true content listMd s e noFail).target listMd s e
        noFail).exit = 0 := by
  have htgt : (runOnce true true content listMd s e noFail).target =
      if ch then new else content := by
    simp only [runOnce, Bool.false_eq_true, if_false, hrep]
    cases ch <;> simp
  have hfirst : replace_between_markers
      (runOnce true true content listMd s e noFail).target s e listMd =
      some ((runOnce true true content listMd s e noFail).target, false) := by
    rw [htgt]
    cases ch with
    | true =>
      simp only [if_true]
      exact replace_idem content s e listMd new true hrep hend
    | false =>
      simp only [Bool.false_eq_true, if_false]
      have hnc := replace_some_snd_false content s e listMd new hrep
      rw [hnc] at hrep
      exact hrep
  refine ⟨hfirst, ?_⟩
  set T := (runOnce true true content listMd s e noFail).target with hT
  simp [runOnce, hfirst]

/-- Witness for C3 (amended) with the default-shaped markers `<A>`/`</A>`
and a fragment `NEW\n` free of the end marker. -/
theorem c3_witness :
    replace_between_markers
        (runOnce true true ("T\n<A>\nOLD\n</A>\nF\n".toList)
          ("NEW\n".toList) ("<A>".toList) ("</A>".toList) false).target
        ("<A>".toList) ("</A>".toList) ("NEW\n".toList) =
      some ((runOnce true true ("T\n<A>\nOLD\n</A>\nF\n".toList)
          ("NEW\n".toList) ("<A>".toList) ("</A>".toList) false).target,
        false) ∧
    (runOnce true true
        (runOnce true true ("T\n<A>\nOLD\n</A>\nF\n".toList)
          ("NEW\n".toList) ("<A>".toList) ("</A>".toList) false).target
        ("NEW\n".toList) ("<A>".toList) ("</A>".toList) false).exit = 0 :=
  c3_idempotent_marker_free ("T\n<A>\nOLD\n</A>\nF\n".toList)
    ("NEW\n".toList) ("<A>".toList) ("</A>".toList) false
    ("T\n<A>\nNEW\n</A>\nF\n".toList) true (by decide) (by decide)

/-! ### Claim C5 -/

theorem head_dropWhile_any_false (p : Char → Bool) :
    ∀ l : List Char, (l.dropWhile p).head?.any p = false
  | [] => rfl
  | c :: rest => by
    by_cases h : p c = true
    · simpa [List.dropWhile, h] using head_dropWhile_any_false p rest
    · simp only [List.dropWhile, h]
      simpa using h

/-- C5 is false as stated: `lstrip("./")` removes every leading `'.'` and
`'/'` character (set semantics), not just a leading `"./"` prefix, so the
claim's own examples are stripped - `.foo/**` becomes `foo/**` and `../x`
becomes `x` - instead of being preserved. -/
theorem c5_counterexample :
    normalize_glob (".foo/**".toList) = "foo/**".toList ∧
    normalize_glob ("../x".toList) = "x".toList ∧
    "foo/**".toList ≠ ".foo/**".toList ∧
    "x".toList ≠ "../x".toList := by
  refine ⟨by decide, by decide, by decide, by decide⟩

/-- C5 (amended): the pattern is normalized by converting backslashes to
forward slashes and then removing the maximal leading run of `'.'` and
`'/'` characters: the result is what remains after a prefix made up only of
such characters, and it never starts with `'.'` or `'/'`.  In particular a
hidden-file pattern's leading dot and a leading `"../"` are removed, not
preserved. -/
theorem c5_lstrip_set_semantics (pat : List Char) :
    ((pat.map (fun c => if c = '\\' then '/' else c)).takeWhile
        (fun c => c = '.' || c = '/')) ++ normalize_glob pat =
      pat.map (fun c => if c = '\\' then '/' else c) ∧
    ((pat.map (fun c => if c = '\\' then '/' else c)).takeWhile
        (fun c => c = '.' || c = '/')).all (fun c => c = '.' || c = '/')
      = true ∧
    (normalize_glob pat).head?.any (fun c => c = '.' || c = '/') = false := by
  refine ⟨List.takeWhile_append_dropWhile _ _, List.all_takeWhile,
    head_dropWhile_any_false _ _⟩

/-! ### Claim C4 -/

/-- C4 is false as stated: for a single file directly under the source
directory (empty group key) and the `"upper"` title-case transform, the
rendered heading is `## MISC` - the transform is applied to the `Misc`
label too - and the literal label `Misc` appears nowhere in the output. -/
theorem c4_counterexample :
    build_list_markdown
        [⟨["r".toList, "docs".toList, "adr".toList, "003.md".toList],
          some ("# Root ADR".toList)⟩]
        ["r".toList, "README.md".toList]
        ["r".toList, "docs".toList, "adr".toList] "subdir" 1 2 "upper"
      = "## MISC\n- [Root ADR](docs/adr/003.md)\n".toList ∧
    findSub ("Misc".toList)
        ("## MISC\n- [Root ADR](docs/adr/003.md)\n".toList) = none := by
  refine ⟨by decide, by decide⟩

/-- C4 (amended): in subdirectory-grouping mode the empty key is first
replaced by the label `Misc`, and the configured title-case transform is
then applied to that label exactly as it is to a non-empty raw key; the
group heading line is the `#` run followed by a space and the transformed
title in both cases. -/
theorem c4_misc_label_transformed (target_dir : List (List Char))
    (level : Nat) (mode : String) (p : List Char × List MdFile) :
    (p.1 = [] →
      (groupBlock target_dir level mode p).head? =
        some (List.replicate (max 1 level) '#' ++ ' ' ::
          apply_case ("Misc".toList) mode)) ∧
    (p.1 ≠ [] →
      (groupBlock target_dir level mode p).head? =
        some (List.replicate (max 1 level) '#' ++ ' ' ::
          apply_case p.1 mode)) := by
  constructor
  · intro h
    simp [groupBlock, h]
  · intro h
    have h' : p.1.isEmpty = false := by
      cases hp : p.1 with
      | nil => exact absurd hp h
      | cons a t => rfl
    simp [groupBlock, h']

/-- Witness for C4 (amended): under the `"upper"` transform the empty key
renders as `## MISC` and the key `db` as `## DB`. -/
theorem c4_witness :
    (groupBlock [] 2 "upper" (([] : List Char), ([] : List MdFile))).head?
      = some ("## MISC".toList) ∧
    (groupBlock [] 2 "upper" ("db".toList, ([] : List MdFile))).head?
      = some ("## DB".toList) := by
  constructor
  · rw [(c4_misc_label_transformed [] 2 "upper" ([], [])).1 rfl]
    decide
  · rw [(c4_misc_label_transformed [] 2 "upper" ("db".toList, [])).2
      (by decide)]
    decide

/-! ### Claims C7, C9, C10: title derivation -/

theorem dropWhile_append_all (p : Char → Bool) :
    ∀ u v : List Char, u.all p = true →
      (u ++ v).dropWhile p = v.dropWhile p
  | [], _, _ => rfl
  | c :: u, v, h => by
    simp only [List.all_cons, Bool.and_eq_true] at h
    simp only [List.cons_append, List.dropWhile, h.1]
    exact dropWhile_append_all p u v h.2

theorem spaceTab_isPyWs (c : Char) (h : isSpaceTab c = true) :
    isPyWs c = true := by
  simp only [isSpaceTab, Bool.or_eq_true, decide_eq_true_eq] at h
  rcases h with rfl | rfl <;> rfl

theorem pyStrip_spaceTab_append (sp x : List Char)
    (h : sp.all isSpaceTab = true) : pyStrip (sp ++ x) = pyStrip x := by
  have hws : sp.all isPyWs = true := by
    rw [List.all_eq_true] at h ⊢
    exact fun c hc => spaceTab_isPyWs c (h c hc)
  simp only [pyStrip, pyLStrip]
  rw [dropWhile_append_all isPyWs sp x hws]

/-- C7 is false as stated: the text `"#  \nfoo"` contains a line matched by
the heading pattern (its stripped capture is empty), yet title derivation
returns `"#"` - the trimmed first non-blank line - not the captured
heading text.  The claim also fails under the stricter reading in which
the heading pattern additionally demands non-empty trimmed text: for
`"#  \n# X"` the first such line is `"# X"` with capture `"X"`, but the
derived title is again `"#"`. -/
theorem c7_counterexample :
    first_h1 ("#  \nfoo".toList) = some [] ∧
    title_for (some ("#  \nfoo".toList)) ("x".toList) = "#".toList ∧
    "#".toList ≠ ([] : List Char) ∧
    lineH1Group ("# X".toList) = some ("X".toList) ∧
    title_for (some ("#  \n# X".toList)) ("x".toList) = "#".toList ∧
    "#".toList ≠ "X".toList := by
  refine ⟨by decide, by decide, by decide, by decide, by decide, by decide⟩

/-- C7 (amended): the three-stage fallback holds with the proviso that the
heading stage applies only when the first matching line's stripped capture
is non-empty: in that case the result is that capture; when there is no
match, or the first match strips to empty, the result is the first line
with non-whitespace content, trimmed; and when there is none of those
either, it is the file's stem. -/
theorem c7_title_stages (text stemName : List Char) :
    (∀ g, first_h1 text = some g → g ≠ [] →
      title_for (some text) stemName = g) ∧
    ((first_h1 text = none ∨ first_h1 text = some []) →
      ∀ l, (splitlinesPy text).find? (fun l => !(pyStrip l).isEmpty)
          = some l →
      title_for (some text) stemName = pyStrip l) ∧
    ((first_h1 text = none ∨ first_h1 text = some []) →
      (splitlinesPy text).find? (fun l => !(pyStrip l).isEmpty) = none →
      title_for (some text) stemName = stemName) := by
  refine ⟨?_, ?_, ?_⟩
  · intro g hg hne
    have h' : g.isEmpty = false := by
      cases g with
      | nil => exact absurd rfl hne
      | cons a t => rfl
    simp [title_for, hg, h']
  · rintro (h | h) l hl <;>
      simp [title_for, h, fallbackTitle, hl]
  · rintro (h | h) hl <;>
      simp [title_for, h, fallbackTitle, hl]

/-- Witness for C7 (amended): the claim's own two examples. -/
theorem c7_witness :
    title_for (some ("# Title A\nBody".toList)) ("a".toList)
      = "Title A".toList ∧
    title_for (some ("No h1 here\nBut first non-empty line".toList))
        ("b".toList)
      = "No h1 here".toList := by
  constructor
  · exact (c7_title_stages ("# Title A\nBody".toList) ("a".toList)).1
      ("Title A".toList) (by decide) (by decide)
  · have h := (c7_title_stages
      ("No h1 here\nBut first non-empty line".toList) ("b".toList)).2.1
      (Or.inl (by decide)) ("No h1 here".toList) (by decide)
    exact h.trans (by decide)

/-- C9: a line made of optional leading spaces/tabs, a single `#`, at least
one space/tab, and text with non-whitespace content is recognised as a
first-level heading even when the `#` does not start at column zero: when
such a line is the first heading-matching line of the file, the derived
title is its trimmed text. -/
theorem c9_indented_heading (text stemName body ws sp : List Char)
    (pre rest : List (List Char))
    (hsplit : splitNL text = pre ++ (ws ++ '#' :: (sp ++ body)) :: rest)
    (hpre : ∀ l ∈ pre, lineH1Group l = none)
    (hws : ws.all isSpaceTab = true)
    (hsp : sp ≠ [])
    (hsp2 : sp.all isSpaceTab = true)
    (hbody : pyStrip body ≠ []) :
    title_for (some text) stemName = pyStrip body := by
  have hbody' : body ≠ [] := by
    intro h
    rw [h] at hbody
    exact hbody rfl
  obtain ⟨c, sp', rfl⟩ : ∃ c sp', sp = c :: sp' := by
    cases sp with
    | nil => exact absurd rfl hsp
    | cons c sp' => exact ⟨c, sp', rfl⟩
  have hc : isSpaceTab c = true := by
    simp only [List.all_cons, Bool.and_eq_true] at hsp2
    exact hsp2.1
  obtain ⟨d, t, hsb⟩ : ∃ d t, sp' ++ body = d :: t := by
    cases hx : sp' ++ body with
    | nil =>
      rcases List.append_eq_nil.mp hx with ⟨-, h2⟩
      exact absurd h2 hbody'
    | cons d t => exact ⟨d, t, rfl⟩
  have hr : (c :: sp') ++ body = c :: d :: t := by
    rw [List.cons_append, hsb]
  have hps : pyStrip ((c :: sp') ++ body) = pyStrip body :=
    pyStrip_spaceTab_append (c :: sp') body hsp2
  have hline : lineH1Group (ws ++ '#' :: ((c :: sp') ++ body))
      = some (pyStrip body) := by
    rw [hr]
    have hdw : (ws ++ '#' :: c :: d :: t).dropWhile isSpaceTab
        = '#' :: c :: d :: t := by
      rw [dropWhile_append_all isSpaceTab ws _ hws]
      rfl
    have hps' : pyStrip (c :: d :: t) = pyStrip body := by
      rw [← hr]
      exact hps
    simp [lineH1Group, hdw, hc, hps']
  have hfirst : first_h1 text = some (pyStrip body) := by
    rw [first_h1, hsplit, List.findSome?_append]
    have hnone : pre.findSome? lineH1Group = none :=
      List.findSome?_eq_none_iff.mpr hpre
    rw [hnone]
    simp only [List.cons_append] at hline
    simp [List.findSome?_cons, hline]
  have hne : (pyStrip body).isEmpty = false := by
    cases hpb : pyStrip body with
    | nil => exact absurd hpb hbody
    | cons a t => rfl
  simp [title_for, hfirst, hne]

/-- Witness for C9: an indented heading `"  # Hello"`. -/
theorem c9_witness :
    title_for (some ("  # Hello\nx".toList)) ("st".toList)
      = pyStrip ("Hello".toList) := by
  have h := c9_indented_heading ("  # Hello\nx".toList) ("st".toList)
    ("Hello".toList) ("  ".toList) (" ".toList) [] ["x".toList]
    (by decide) (by simp) (by decide) (by decide) (by decide) (by decide)
  exact h

/-- C10: when every line matched by the heading pattern has a capture that
strips to the empty string, the heading branch is skipped - it never
returns the empty string - and the title falls through to the first
non-blank line, or to the stem when there is none. -/
theorem c10_empty_capture_falls_through (text stemName : List Char)
    (h : ∀ l ∈ splitNL text,
      lineH1Group l = none ∨ lineH1Group l = some []) :
    title_for (some text) stemName = fallbackTitle text stemName ∧
    (first_h1 text = none ∨ first_h1 text = some []) := by
  have hf : first_h1 text = none ∨ first_h1 text = some [] := by
    cases hg : first_h1 text with
    | none => exact Or.inl rfl
    | some g =>
      obtain ⟨l, hl, hlg⟩ := List.exists_of_findSome?_eq_some hg
      rcases h l hl with h' | h'
      · rw [h'] at hlg
        cases hlg
      · rw [h'] at hlg
        cases hlg
        exact Or.inr rfl
  refine ⟨?_, hf⟩
  rcases hf with hf | hf <;> simp [title_for, hf]

/-- Witness for C10: the single line `"#  "` matches the heading pattern
with an empty stripped capture; the title is the fallback (the trimmed
line `"#"`), not the empty string. -/
theorem c10_witness :
    title_for (some ("#  ".toList)) ("nn".toList)
      = fallbackTitle ("#  ".toList) ("nn".toList) ∧
    (first_h1 ("#  ".toList) = none ∨ first_h1 ("#  ".toList) = some []) :=
  c10_empty_capture_falls_through ("#  ".toList) ("nn".toList) (by decide)

/-! ### Claim C6: glob matching -/

theorem mem_suffixes_self : ∀ s : List Char, s ∈ suffixes s
  | [] => by simp [suffixes]
  | c :: r => by simp [suffixes]

theorem suffixes_trans : ∀ s t u : List Char,
    t ∈ suffixes s → u ∈ suffixes t → u ∈ suffixes s
  | [], t, u, ht, hu => by
    simp only [suffixes, List.mem_singleton] at ht
    subst ht
    exact hu
  | c :: r, t, u, ht, hu => by
    simp only [suffixes, List.mem_cons] at ht ⊢
    rcases ht with rfl | ht
    · simp only [suffixes, List.mem_cons] at hu
      exact hu
    · exact Or.inr (suffixes_trans r t u ht hu)

theorem tmatch_star_star (ts : List GTok) (s : List Char) :
    tmatch (.star :: .star :: ts) s = tmatch (.star :: ts) s := by
  rw [Bool.eq_iff_iff]
  simp only [tmatch, List.any_eq_true]
  constructor
  · rintro ⟨s1, hs1, s2, hs2, hm⟩
    exact ⟨s2, suffixes_trans s s1 s2 hs1 hs2, hm⟩
  · rintro ⟨s1, hs1, hm⟩
    exact ⟨s1, hs1, s1, mem_suffixes_self s1, hm⟩

theorem fnmatch_star_star (nameStr rest : List Char) :
    fnmatch nameStr ('*' :: '*' :: rest) = fnmatch nameStr ('*' :: rest) := by
  have h2 : tokenize ('*' :: '*' :: rest)
      = .star :: .star :: tokenizeFuel rest.length rest := by
    simp [tokenize, tokenizeFuel]
  have h1 : tokenize ('*' :: rest)
      = .star :: tokenizeFuel rest.length rest := by
    simp [tokenize, tokenizeFuel]
  rw [fnmatch, fnmatch, h2, h1, tmatch_star_star]

/-- C6 is false as stated: under the claim's glob semantics `*` does not
cross `/`, so the pattern `*.md` would not exclude a file at relative path
`sub/a.md`; but discovery uses `fnmatch`, whose translated `*` becomes the
regex `.*` and does cross `/` - the file is excluded.  The spec-modelled
matcher `globSpecMatch` renders the claimed semantics. -/
theorem c6_counterexample :
    iter_markdown_files ["r".toList, "docs".toList]
        [⟨["r".toList, "docs".toList, "sub".toList, "a.md".toList],
          some ("# A".toList)⟩]
        ["*.md".toList] ["md".toList] = [] ∧
    globSpecMatch ("sub/a.md".toList) ("*.md".toList) = false ∧
    fnmatch ("sub/a.md".toList) ("*.md".toList) = true := by
  refine ⟨by decide, by decide, by decide⟩

/-- C6 (amended): a discovered file is excluded exactly when its relative
path matches some normalized pattern under `fnmatch` semantics, in which
`*` and `?` match any characters including `/` (so `*` crosses directory
segments) and `**` is equivalent to a single `*`; the claim's example
still holds: with `keep.md` and `archive/old.md` under the source
directory, the pattern `archive/**` keeps `keep.md` and excludes
`old.md`. -/
theorem c6_fnmatch_semantics :
    (∀ (src : List (List Char)) (files : List MdFile)
        (pats exts : List (List Char)) (f : MdFile),
      f ∈ iter_markdown_files src files pats exts ↔
        (f ∈ files ∧
         ((pySuffix (pathName f)).dropWhile (fun c => c = '.')) ∈ exts ∧
         pats.all
           (fun pat => !(fnmatch (relPosix f src) (normalize_glob pat)))
           = true)) ∧
    (∀ nameStr rest : List Char,
      fnmatch nameStr ('*' :: '*' :: rest)
        = fnmatch nameStr ('*' :: rest)) ∧
    iter_markdown_files ["r".toList, "docs".toList]
        [⟨["r".toList, "docs".toList, "keep.md".toList],
          some ("# Keep".toList)⟩,
         ⟨["r".toList, "docs".toList, "archive".toList, "old.md".toList],
          some ("# Old".toList)⟩]
        ["archive/**".toList] ["md".toList]
      = [⟨["r".toList, "docs".toList, "keep.md".toList],
          some ("# Keep".toList)⟩] := by
  refine ⟨?_, fnmatch_star_star, by decide⟩
  intro src files pats exts f
  simp only [iter_markdown_files, List.mem_filter, Bool.and_eq_true,
    decide_eq_true_eq, List.any_map, ← List.not_any_eq_all_not,
    Function.comp]
  tauto

/-! ### Claim C8: group ordering and entry preservation -/

theorem lexLe_total : ∀ a b : List Char, lexLe a b = true ∨ lexLe b a = true
  | [], _ => Or.inl rfl
  | _ :: _, [] => Or.inr rfl
  | a :: as_, b :: bs => by
    by_cases h : a = b
    · subst h
      simpa [lexLe] using lexLe_total as_ bs
    · rcases lt_trichotomy a b with hl | he | hg
      · exact Or.inl (by simp [lexLe, h, hl])
      · exact absurd he h
      · have h' : ¬ b = a := fun hh => h hh.symm
        exact Or.inr (by simp [lexLe, h', hg])

theorem lexLe_trans : ∀ a b c : List Char,
    lexLe a b = true → lexLe b c = true → lexLe a c = true
  | [], _, _, _, _ => rfl
  | _ :: _, [], _, hab, _ => by simp [lexLe] at hab
  | _ :: _, _ :: _, [], _, hbc => by simp [lexLe] at hbc
  | a :: as_, b :: bs, c :: cs, hab, hbc => by
    by_cases h1 : a = b <;> by_cases h2 : b = c
    · subst h1
      subst h2
      simp only [lexLe, if_pos rfl] at hab hbc ⊢
      exact lexLe_trans as_ bs cs hab hbc
    · subst h1
      simp only [lexLe, if_pos rfl] at hab
      simp [lexLe, h2] at hbc ⊢
      exact hbc
    · subst h2
      simp [lexLe, h1] at hab ⊢
      exact hab
    · simp [lexLe, h1] at hab
      simp [lexLe, h2] at hbc
      have hac : a < c := lt_trans hab hbc
      have hne : ¬ a = c := ne_of_lt hac
      simp [lexLe, hne, hac]

theorem lowerLe_total (a b : List Char) :
    lowerLe a b = true ∨ lowerLe b a = true :=
  lexLe_total (a.map Char.toLower) (b.map Char.toLower)

theorem lowerLe_trans (a b c : List Char) (h1 : lowerLe a b = true)
    (h2 : lowerLe b c = true) : lowerLe a c = true :=
  lexLe_trans (a.map Char.toLower) (b.map Char.toLower)
    (c.map Char.toLower) h1 h2

theorem insertLe_perm {α : Type} (le : α → α → Bool) (x : α) :
    ∀ l : List α, List.Perm (insertLe le x l) (x :: l)
  | [] => List.Perm.refl _
  | y :: ys => by
    by_cases h : le x y = true
    · simp [insertLe, h]
    · simp only [insertLe, h, Bool.false_eq_true, if_false]
      exact (List.Perm.cons y (insertLe_perm le x ys)).trans
        (List.Perm.swap x y ys)

theorem sortLe_perm {α : Type} (le : α → α → Bool) :
    ∀ l : List α, List.Perm (sortLe le l) l
  | [] => List.Perm.refl _
  | x :: l => by
    have h1 : sortLe le (x :: l) = insertLe le x (sortLe le l) := rfl
    rw [h1]
    exact (insertLe_perm le x (sortLe le l)).trans
      (List.Perm.cons x (sortLe_perm le l))

theorem pairwise_insertLe {α : Type} (le : α → α → Bool)
    (htot : ∀ a b, le a b = true ∨ le b a = true)
    (htr : ∀ a b c, le a b = true → le b c = true → le a c = true)
    (x : α) :
    ∀ l : List α, l.Pairwise (fun a b => le a b = true) →
      (insertLe le x l).Pairwise (fun a b => le a b = true)
  | [], _ => by simp [insertLe]
  | y :: ys, h => by
    obtain ⟨hy, hys⟩ := List.pairwise_cons.mp h
    by_cases hxy : le x y = true
    · simp only [insertLe, hxy, if_true]
      refine List.pairwise_cons.mpr ⟨?_, h⟩
      intro z hz
      rcases List.mem_cons.mp hz with rfl | hz
      · exact hxy
      · exact htr x y z hxy (hy z hz)
    · simp only [insertLe, hxy, Bool.false_eq_true, if_false]
      refine List.pairwise_cons.mpr ⟨?_, pairwise_insertLe le htot htr x ys hys⟩
      intro z hz
      have hz' := (insertLe_perm le x ys).mem_iff.mp hz
      rcases List.mem_cons.mp hz' with hzx | hz2
      · rw [hzx]
        rcases htot x y with hh | hh
        · exact absurd hh hxy
        · exact hh
      · exact hy z hz2

theorem sortLe_pairwise {α : Type} (le : α → α → Bool)
    (htot : ∀ a b, le a b = true ∨ le b a = true)
    (htr : ∀ a b c, le a b = true → le b c = true → le a c = true) :
    ∀ l : List α, (sortLe le l).Pairwise (fun a b => le a b = true)
  | [] => List.Pairwise.nil
  | x :: l => by
    have h1 : sortLe le (x :: l) = insertLe le x (sortLe le l) := rfl
    rw [h1]
    exact pairwise_insertLe le htot htr x (sortLe le l)
      (sortLe_pairwise le htot htr l)

theorem map_fst_groupInsert {α : Type} (k : List Char) (x : α) :
    ∀ g : List (List Char × List α),
      (groupInsert k x g).map Prod.fst =
        if k ∈ g.map Prod.fst then g.map Prod.fst
        else g.map Prod.fst ++ [k]
  | [] => by simp [groupInsert]
  | (k', xs) :: rest => by
    by_cases h : k' = k
    · subst h
      simp [groupInsert]
    · have hkk : ¬ k = k' := fun hh => h hh.symm
      simp only [groupInsert, if_neg h, List.map_cons, List.mem_cons,
        hkk, false_or]
      rw [map_fst_groupInsert k x rest]
      by_cases hm : k ∈ rest.map Prod.fst
      · simp [hm]
      · simp [hm]

theorem nodup_map_fst_groupInsert {α : Type} (k : List Char) (x : α)
    (g : List (List Char × List α)) (h : (g.map Prod.fst).Nodup) :
    ((groupInsert k x g).map Prod.fst).Nodup := by
  rw [map_fst_groupInsert]
  by_cases hm : k ∈ g.map Prod.fst
  · simpa [hm]
  · simp [hm, List.nodup_append, h, List.disjoint_singleton]

theorem groupInsert_values {α : Type} (k : List Char) (x : α)
    (F : List Char → List α) :
    ∀ g : List (List Char × List α),
      (g.map Prod.fst).Nodup →
      (∀ p ∈ g, p.2 = F p.1) →
      (k ∉ g.map Prod.fst → F k = []) →
      ∀ p ∈ groupInsert k x g,
        p.2 = F p.1 ++ (if p.1 = k then [x] else [])
  | [], _, _, hF, p, hp => by
    simp only [groupInsert, List.mem_singleton] at hp
    subst hp
    simp [hF (by simp)]
  | (k', xs) :: rest, hnd, hall, hF, p, hp => by
    have hnd1 : (k' :: rest.map Prod.fst).Nodup := by
      simpa only [List.map_cons] using hnd
    obtain ⟨hknotin, hndr⟩ := List.nodup_cons.mp hnd1
    by_cases h : k' = k
    · subst h
      simp only [groupInsert, if_pos rfl] at hp
      rcases List.mem_cons.mp hp with hp' | hp'
      · subst hp'
        have hx : xs = F k' := by
          simpa using hall (k', xs) (List.mem_cons_self _ _)
        simp [← hx]
      · have hv : p.2 = F p.1 := hall p (List.mem_cons_of_mem _ hp')
        have hne : ¬ p.1 = k' := by
          intro hk
          exact hknotin (hk ▸ (List.mem_map_of_mem Prod.fst hp'))
        simp [hv, hne]
    · simp only [groupInsert, if_neg h] at hp
      rcases List.mem_cons.mp hp with hp' | hp'
      · subst hp'
        have hv : xs = F k' := by
          simpa using hall (k', xs) (List.mem_cons_self _ _)
        simp [hv, h]
      · have hall' : ∀ q ∈ rest, q.2 = F q.1 := fun q hq =>
          hall q (List.mem_cons_of_mem _ hq)
        have hF' : k ∉ rest.map Prod.fst → F k = [] := by
          intro hnr
          refine hF ?_
          simp only [List.map_cons, List.mem_cons]
          rintro (hk | hk)
          · exact h hk.symm
          · exact hnr hk
        exact groupInsert_values k x F rest hndr hall' hF' p hp'

theorem groupPairs_spec {α : Type} [DecidableEq α] (keyOf : α → List Char)
    (l : List α) :
    ((groupPairs keyOf l).map Prod.fst).Nodup ∧
    (∀ x ∈ l, keyOf x ∈ (groupPairs keyOf l).map Prod.fst) ∧
    (∀ p ∈ groupPairs keyOf l,
      p.2 = l.filter (fun y => keyOf y == p.1)) := by
  induction l using List.reverseRecOn with
  | nil => simp [groupPairs]
  | append_singleton l x ih =>
    obtain ⟨h1, h2, h3⟩ := ih
    have hstep : groupPairs keyOf (l ++ [x])
        = groupInsert (keyOf x) x (groupPairs keyOf l) := by
      simp [groupPairs, List.foldl_append]
    rw [hstep]
    refine ⟨nodup_map_fst_groupInsert _ _ _ h1, ?_, ?_⟩
    · intro y hy
      rw [map_fst_groupInsert]
      rcases List.mem_append.mp hy with hy | hy
      · by_cases hm : keyOf x ∈ (groupPairs keyOf l).map Prod.fst
        · simpa [hm] using h2 y hy
        · simp only [hm, if_neg hm]
          exact List.mem_append_left _ (h2 y hy)
      · simp only [List.mem_singleton] at hy
        subst hy
        by_cases hm : keyOf y ∈ (groupPairs keyOf l).map Prod.fst
        · simp [hm]
        · simp [hm]
    · intro p hp
      have hF : keyOf x ∉ (groupPairs keyOf l).map Prod.fst →
          l.filter (fun y => keyOf y == keyOf x) = [] := by
        intro hnm
        rw [List.filter_eq_nil_iff]
        intro a ha hba
        exact hnm (by
          have : keyOf a = keyOf x := by simpa using hba
          exact this ▸ h2 a ha)
      have hv := groupInsert_values (keyOf x) x
        (fun k => l.filter (fun y => keyOf y == k))
        (groupPairs keyOf l) h1 h3 hF p hp
      rw [hv, List.filter_append, List.filter_singleton]
      by_cases hk : p.1 = keyOf x
      · simp [hk]
      · have hbf : (keyOf x == p.1) = false := by
          rw [beq_eq_false_iff_ne]
          exact fun hh => hk hh.symm
        simp [hk, hbf]

/-- C8: in subdirectory-grouping mode the rendered groups - the key/entry
sections `build_list_markdown` renders in order - are pairwise in
case-insensitive ascending key order, and each group's entry list is
exactly the sublist of the input files with that group key, in input
order. -/
theorem c8_group_order_and_entries (files : List MdFile)
    (src : List (List Char)) (depth : Nat) :
    (sortedGroups files src depth).Pairwise
      (fun p q => lowerLe p.1 q.1 = true) ∧
    ∀ p ∈ sortedGroups files src depth,
      p.2 = files.filter (fun f => group_key_for f src depth == p.1) := by
  constructor
  · exact sortLe_pairwise
      (fun (p q : List Char × List MdFile) => lowerLe p.1 q.1)
      (fun p q => lowerLe_total p.1 q.1)
      (fun p q r => lowerLe_trans p.1 q.1 r.1)
      (groupPairs (fun f => group_key_for f src depth) files)
  · intro p hp
    have hmem : p ∈ groupPairs (fun f => group_key_for f src depth) files :=
      (sortLe_perm _ _).mem_iff.mp hp
    exact (groupPairs_spec _ files).2.2 p hmem

/-- Witness for C8: two files, one directly under the source directory and
one under `db/`; the empty key sorts first and each group carries exactly
its own file. -/
theorem c8_witness :
    (sortedGroups
        [⟨["r".toList, "docs".toList, "003.md".toList],
          some ("# R".toList)⟩,
         ⟨["r".toList, "docs".toList, "db".toList, "001.md".toList],
          some ("# D".toList)⟩]
        ["r".toList, "docs".toList] 1).Pairwise
      (fun p q => lowerLe p.1 q.1 = true) ∧
    ([⟨["r".toList, "docs".toList, "003.md".toList],
        some ("# R".toList)⟩] : List MdFile)
      = [⟨["r".toList, "docs".toList, "003.md".toList],
          some ("# R".toList)⟩,
         ⟨["r".toList, "docs".toList, "db".toList, "001.md".toList],
          some ("# D".toList)⟩].filter
          (fun f => group_key_for f ["r".toList, "docs".toList] 1 == []) := by
  constructor
  · exact (c8_group_order_and_entries _ _ _).1
  · exact (c8_group_order_and_entries
      [⟨["r".toList, "docs".toList, "003.md".toList],
        some ("# R".toList)⟩,
       ⟨["r".toList, "docs".toList, "db".toList, "001.md".toList],
        some ("# D".toList)⟩]
      ["r".toList, "docs".toList] 1).2
      ([], [⟨["r".toList, "docs".toList, "003.md".toList],
        some ("# R".toList)⟩]) (by decide)

end AdrScanner
